import Mathlib

/-!
Shallow embedding of the PPM decoder core of `ppmadapter`
(`src/ppmadapter/__init__.py`, class `PPMDecoder`).

The decoder is a pure state machine: `feed` consumes a block of signed
audio samples, detects threshold crossings, measures pulse widths between
a falling edge and the next rising edge, and `signal` classifies each
width as a frame-sync marker or a channel pulse, emitting axis writes.

Python floats are modelled as exact rationals: every constant involved
(`0.0025`, `0.0007`, sample rates, pulse widths) is used at magnitudes
where double-precision evaluation agrees with exact rational arithmetic
in all the comparisons and truncations performed, and away from any
rounding boundary of the conversions. Python `int()` is truncation
toward zero, modelled by `ratTrunc`.
-/

namespace PPM

/-- `self._threshold = 15000`. -/
def threshold : ℤ := 15000

/-- `self._marker = int(2.0 * 0.0025 * self._rate)`: the frame-space marker
width in samples; with exact arithmetic `⌊rate / 200⌋`. -/
def marker (rate : ℕ) : ℕ := rate / 200

/-- evdev axis code `ABS_X`. -/
def ABS_X : ℕ := 0
/-- evdev axis code `ABS_Y`. -/
def ABS_Y : ℕ := 1
/-- evdev axis code `ABS_Z`. -/
def ABS_Z : ℕ := 2
/-- evdev axis code `ABS_THROTTLE`. -/
def ABS_THROTTLE : ℕ := 6

/-- `self._mapping = {0: ABS_X, 1: ABS_Y, 2: ABS_Z, 3: ABS_THROTTLE}`,
as the association list underlying the Python dict (insertion order). -/
def mappingList : List (ℕ × ℕ) :=
  [(0, ABS_X), (1, ABS_Y), (2, ABS_Z), (3, ABS_THROTTLE)]

/-- Dict lookup `self._mapping[k]`; `none` models `k not in self._mapping`. -/
def mapping : ℕ → Option ℕ
  | 0 => some ABS_X
  | 1 => some ABS_Y
  | 2 => some ABS_Z
  | 3 => some ABS_THROTTLE
  | _ + 4 => none

/-- Python `int()` applied to a rational: truncation toward zero. -/
def ratTrunc (q : ℚ) : ℤ := if 0 ≤ q then ⌊q⌋ else ⌈q⌉

/-- `value = int((duration - 0.0007) * 1000 * 255)` with
`duration = float(w) / self._rate`. -/
def pulseValue (rate : ℕ) (w : ℤ) : ℤ :=
  ratTrunc (((w : ℚ) / (rate : ℚ) - 7 / 10000) * 1000 * 255)

/-- Result of one `signal` call: the updated channel index (`self._ch`),
the axis write it emitted, if any (`self._ev.write(EV_ABS, axis, value)`),
and its boolean return value (does uinput require sync). -/
def signal (rate : ℕ) (ch : Option ℕ) (w : ℤ) : Option ℕ × Option (ℕ × ℤ) × Bool :=
  if (marker rate : ℤ) < w then
    (some 0, none, false)
  else
    match ch with
    | none => (none, none, false)
    | some k =>
      match mapping k with
      | none => (some k, none, false)
      | some ax => (some (k + 1), some (ax, pulseValue rate w), true)

/-- The persistent decoder state: `self._last_edge`, `self._lf`, `self._ch`.
`lf` is the sample index of the most recent falling edge, relative to the
start of the current block (negative once carried over a block boundary). -/
structure DecState where
  lastEdge : Option Bool
  lf : Option ℤ
  ch : Option ℕ
deriving DecidableEq, Repr

/-- State at construction: `self._last_edge = None`, `self._lf = None`,
`self._ch = None`. -/
def initState : DecState := ⟨none, none, none⟩

/-- `data[i] > self._threshold`. -/
def edge (x : ℤ) : Bool := decide (threshold < x)

/-- Output of the per-sample loop of `feed`: final loop state, the axis
writes emitted (in order), the pulse widths passed to `signal` (in order,
an instrumentation of the calls the loop makes), and the accumulated
`sync_req` flag. -/
structure LoopOut where
  st : DecState
  writes : List (ℕ × ℤ)
  widths : List ℤ
  syncReq : Bool
deriving DecidableEq, Repr

/-- The `for i in range(len(data))` loop body of `feed`, with `i` the index
of the head of the remaining data. -/
def feedLoop (rate : ℕ) : ℤ → DecState → List ℤ → LoopOut
  | _, st, [] => ⟨st, [], [], false⟩
  | i, st, d :: rest =>
    let thisEdge := edge d
    match st.lastEdge with
    | none => feedLoop rate (i + 1) { st with lastEdge := some thisEdge } rest
    | some last =>
      if thisEdge && !last then
        -- rising edge
        match st.lf with
        | some f =>
          let w := i - f
          let r := signal rate st.ch w
          let out := feedLoop rate (i + 1) { st with lastEdge := some thisEdge, ch := r.1 } rest
          ⟨out.st, r.2.1.toList ++ out.writes, w :: out.widths, r.2.2 || out.syncReq⟩
        | none => feedLoop rate (i + 1) { st with lastEdge := some thisEdge } rest
      else if !thisEdge && last then
        -- falling edge
        feedLoop rate (i + 1) { st with lastEdge := some thisEdge, lf := some i } rest
      else
        feedLoop rate (i + 1) { st with lastEdge := some thisEdge } rest

/-- The end-of-block tail of `feed`: normalize `self._lf` by the block
length, then the sync-loss guard (`if self._lf < -self._rate`). -/
def endOfBlock (rate : ℕ) (st : DecState) (len : ℕ) : DecState :=
  match st.lf with
  | none => st
  | some f =>
    let f' := f - (len : ℤ)
    if f' < -(rate : ℤ) then { st with ch := none, lf := none }
    else { st with lf := some f' }

/-- Result of one `feed` call: final state, the writes, the measured
widths, and how many times `self._ev.syn()` was called. -/
structure FeedOut where
  st : DecState
  writes : List (ℕ × ℤ)
  widths : List ℤ
  syncs : ℕ
deriving DecidableEq, Repr

/-- `PPMDecoder.feed(data)` as a pure state transformer. -/
def feed (rate : ℕ) (st : DecState) (data : List ℤ) : FeedOut :=
  let o := feedLoop rate 0 st data
  ⟨endOfBlock rate o.st data.length, o.writes, o.widths, if o.syncReq then 1 else 0⟩

/-- An evdev absolute-axis info record (field order of evdev's
`AbsInfo` namedtuple: value, min, max, fuzz, flat, resolution). -/
structure AbsInfo where
  value : ℤ
  min : ℤ
  max : ℤ
  fuzz : ℤ
  flat : ℤ
  resolution : ℤ
deriving DecidableEq, Repr

/-- The 4-tuple `(0, 5, 255, 0)` passed for every axis in
`events = [(v, (0, 5, 255, 0)) for v in self._mapping.values()]`. -/
def axisAbsTuple : ℤ × ℤ × ℤ × ℤ := (0, 5, 255, 0)

/-- evdev interprets a short tuple as the leading fields of `AbsInfo`
(value, min, max, fuzz), padding the rest with zeros. -/
def absInfoOfTuple : ℤ × ℤ × ℤ × ℤ → AbsInfo
  | (v, mn, mx, fz) => ⟨v, mn, mx, fz, 0, 0⟩

/-- The `UInput(...)` declare-device call made in `PPMDecoder.__init__`. -/
structure Declaration where
  name : String
  absAxes : List (ℕ × (ℤ × ℤ × ℤ × ℤ))
  keys : List ℕ
deriving DecidableEq, Repr

/-- `PPMDecoder.__init__`: the initial decoder state together with the
list of declare-device calls the constructor performs (exactly one). -/
def initDecoder (_rate : ℕ) : DecState × List Declaration :=
  (initState,
   [⟨"ppmadapter", mappingList.map fun p => (p.2, axisAbsTuple), [288]⟩])

/-- The falling-edge offset, when set, lies in `[-rate, -1]` — the range
of offsets that can survive end-of-block normalization and the sync-loss
guard. -/
def lfInv (rate : ℕ) (st : DecState) : Prop :=
  ∀ f, st.lf = some f → -(rate : ℤ) ≤ f ∧ f ≤ -1

/-- Shift a decoder state's falling-edge offset by `c` (re-expressing it
relative to a block origin moved by `-c`). -/
def shiftSt (c : ℤ) (st : DecState) : DecState :=
  ⟨st.lastEdge, st.lf.map (· + c), st.ch⟩

/-- Shift the state inside a loop result; writes, widths and the sync
flag are origin-independent. -/
def shiftOut (c : ℤ) (o : LoopOut) : LoopOut :=
  ⟨shiftSt c o.st, o.writes, o.widths, o.syncReq⟩

/-- Sequential composition of two loop results. -/
def seqOut (o1 o2 : LoopOut) : LoopOut :=
  ⟨o2.st, o1.writes ++ o2.writes, o1.widths ++ o2.widths, o1.syncReq || o2.syncReq⟩

end PPM

namespace PPM

/-! ### Helper lemmas -/

theorem ratTrunc_eq_of_le_of_lt (q : ℚ) (n : ℤ) (h0 : 0 ≤ n) (h1 : (n : ℚ) ≤ q)
    (h2 : q < n + 1) : ratTrunc q = n := by
  have hq : 0 ≤ q := le_trans (by exact_mod_cast h0) h1
  rw [ratTrunc, if_pos hq, Int.floor_eq_iff]
  exact ⟨h1, by exact_mod_cast h2⟩

theorem mapping_eq_none_of_ge (k : ℕ) (h : 4 ≤ k) : mapping k = none := by
  match k, h with
  | n + 4, _ => rfl

theorem signal_of_marker_lt (rate : ℕ) (ch : Option ℕ) (w : ℤ)
    (h : (marker rate : ℤ) < w) : signal rate ch w = (some 0, none, false) := by
  unfold signal
  rw [if_pos h]

theorem signal_sync_iff_write (rate : ℕ) (ch : Option ℕ) (w : ℤ) :
    (signal rate ch w).2.2 = true ↔ (signal rate ch w).2.1 ≠ none := by
  unfold signal
  split
  · simp
  · cases ch with
    | none => simp
    | some k =>
      cases h : mapping k with
      | none => simp [h]
      | some ax => simp [h]

theorem feedLoop_nil (rate : ℕ) (i : ℤ) (st : DecState) :
    feedLoop rate i st [] = ⟨st, [], [], false⟩ := rfl

theorem feedLoop_cons_first (rate : ℕ) (i : ℤ) (st : DecState) (d : ℤ) (rest : List ℤ)
    (h : st.lastEdge = none) :
    feedLoop rate i st (d :: rest) =
      feedLoop rate (i + 1) { st with lastEdge := some (edge d) } rest := by
  obtain ⟨le, lf, ch⟩ := st
  cases h
  rfl

theorem feedLoop_cons_rising (rate : ℕ) (i : ℤ) (st : DecState) (d : ℤ) (rest : List ℤ)
    (last : Bool) (f : ℤ) (hle : st.lastEdge = some last) (hlf : st.lf = some f)
    (h1 : (edge d && !last) = true) :
    feedLoop rate i st (d :: rest) =
      ⟨(feedLoop rate (i + 1) { st with lastEdge := some (edge d), ch := (signal rate st.ch (i - f)).1 } rest).st,
       (signal rate st.ch (i - f)).2.1.toList ++
         (feedLoop rate (i + 1) { st with lastEdge := some (edge d), ch := (signal rate st.ch (i - f)).1 } rest).writes,
       (i - f) ::
         (feedLoop rate (i + 1) { st with lastEdge := some (edge d), ch := (signal rate st.ch (i - f)).1 } rest).widths,
       (signal rate st.ch (i - f)).2.2 ||
         (feedLoop rate (i + 1) { st with lastEdge := some (edge d), ch := (signal rate st.ch (i - f)).1 } rest).syncReq⟩ := by
  obtain ⟨le, lf, ch⟩ := st
  cases hle
  cases hlf
  conv_lhs => rw [feedLoop]
  simp [h1]

theorem feedLoop_cons_rising_nolf (rate : ℕ) (i : ℤ) (st : DecState) (d : ℤ) (rest : List ℤ)
    (last : Bool) (hle : st.lastEdge = some last) (hlf : st.lf = none)
    (h1 : (edge d && !last) = true) :
    feedLoop rate i st (d :: rest) =
      feedLoop rate (i + 1) { st with lastEdge := some (edge d) } rest := by
  obtain ⟨le, lf, ch⟩ := st
  cases hle
  cases hlf
  conv_lhs => rw [feedLoop]
  simp [h1]

theorem feedLoop_cons_falling (rate : ℕ) (i : ℤ) (st : DecState) (d : ℤ) (rest : List ℤ)
    (last : Bool) (hle : st.lastEdge = some last)
    (h1 : (edge d && !last) = false) (h2 : (!(edge d) && last) = true) :
    feedLoop rate i st (d :: rest) =
      feedLoop rate (i + 1) { st with lastEdge := some (edge d), lf := some i } rest := by
  obtain ⟨le, lf, ch⟩ := st
  cases hle
  conv_lhs => rw [feedLoop]
  simp [h1, h2]

theorem feedLoop_cons_flat (rate : ℕ) (i : ℤ) (st : DecState) (d : ℤ) (rest : List ℤ)
    (last : Bool) (hle : st.lastEdge = some last)
    (h1 : (edge d && !last) = false) (h2 : (!(edge d) && last) = false) :
    feedLoop rate i st (d :: rest) =
      feedLoop rate (i + 1) { st with lastEdge := some (edge d) } rest := by
  obtain ⟨le, lf, ch⟩ := st
  cases hle
  conv_lhs => rw [feedLoop]
  simp [h1, h2]

/-! ### Claim theorems -/

/-- C1 counterexample: at `rate = 200` the marker width is exactly 1, so the
pulse `w = 1` satisfies `w ≥ MarkerWidth`; yet from state `Synced(0)` the
decoder treats it as a channel pulse: it moves to `Synced(1)` (not
`Synced(0)`), emits an axis write, and requests a sync flush — because the
code tests `w > self._marker`, not `w ≥ self._marker`. -/
theorem C1_counterexample :
    (marker 200 : ℤ) ≤ 1 ∧
      signal 200 (some 0) 1 = (some 1, some (ABS_X, 1096), true) := by
  constructor
  · decide
  · have h : pulseValue 200 1 = 1096 := by
      rw [pulseValue]; apply ratTrunc_eq_of_le_of_lt <;> norm_num
    unfold signal
    norm_num [marker, mapping, h]

/-- C1 (amended): for every pulse width strictly greater than `MarkerWidth`
the transition goes to `Synced(channel = 0)` regardless of prior state,
emits no axis write, and requests no sync flush; a width exactly equal to
`MarkerWidth` is instead processed as a channel pulse. -/
theorem C1_theorem (rate : ℕ) (ch : Option ℕ) (w : ℤ)
    (h : (marker rate : ℤ) < w) : signal rate ch w = (some 0, none, false) :=
  signal_of_marker_lt rate ch w h

/-- C1 witness: concrete instance of the amended claim at `rate = 200`,
`w = 2 > marker = 1`, prior state `Synced(5)`. -/
theorem C1_witness :
    (marker 200 : ℤ) < 2 ∧ signal 200 (some 5) 2 = (some 0, none, false) :=
  ⟨by decide, C1_theorem 200 (some 5) 2 (by decide)⟩

/-- C2 counterexample: at `rate = 1000000`, the channel pulse `w = 711`
(below the marker width 5000), decoded while synced at channel 0, writes
the value `2` — the truncation of the exact value `2.805` — whereas
rounding to nearest would give `3`. The code applies Python `int()`
(truncation toward zero), not `round`. -/
theorem C2_counterexample :
    (711 : ℤ) < (marker 1000000 : ℤ) ∧
      signal 1000000 (some 0) 711 = (some 1, some (ABS_X, 2), true) ∧
      round (((711 : ℚ) / 1000000 - 7 / 10000) * 1000 * 255) = (3 : ℤ) := by
  refine ⟨by decide, ?_, ?_⟩
  · have h : pulseValue 1000000 711 = 2 := by
      rw [pulseValue]; apply ratTrunc_eq_of_le_of_lt <;> norm_num
    unfold signal
    norm_num [marker, mapping, h]
  · rw [round_eq, Int.floor_eq_iff]
    constructor <;> norm_num

/-- C2 (amended): for every decoded channel pulse of width `w` not above
`MarkerWidth`, with the decoder synced at a channel `k` inside the
mapping's domain, the integer written to the bound axis is the truncation
toward zero (Python `int()`) of `(w / sample_rate − 0.0007) × 1000 × 255`,
not the rounding to nearest. -/
theorem C2_theorem (rate : ℕ) (k : ℕ) (w : ℤ) (ax : ℕ)
    (hmap : mapping k = some ax) (hw : ¬ (marker rate : ℤ) < w) :
    signal rate (some k) w =
      (some (k + 1),
       some (ax, ratTrunc (((w : ℚ) / (rate : ℚ) - 7 / 10000) * 1000 * 255)),
       true) := by
  unfold signal
  rw [if_neg hw]
  simp [hmap, pulseValue]

/-- C2 witness: concrete instance of the amended claim at `rate = 1000000`,
`k = 0`, `w = 711`; the truncated value is `2`. -/
theorem C2_witness :
    mapping 0 = some ABS_X ∧ ¬ (marker 1000000 : ℤ) < 711 ∧
      signal 1000000 (some 0) 711 =
        (some 1, some (ABS_X, ratTrunc (((711 : ℚ) / 1000000 - 7 / 10000) * 1000 * 255)), true) :=
  ⟨rfl, by decide, by
    have := C2_theorem 1000000 0 711 ABS_X rfl (by decide)
    simpa using this⟩

/-- C3 counterexample: the constructor's declare-device call does not give
every axis the value-range `[0, 255]`: the per-axis tuple is
`(0, 5, 255, 0)`, whose evdev `AbsInfo` reading has minimum `5`, not `0`
(the leading `0` is the initial value). -/
theorem C3_counterexample :
    ¬ ∀ d ∈ (initDecoder 44100).2, ∀ p ∈ d.absAxes,
        (absInfoOfTuple p.2).min = 0 ∧ (absInfoOfTuple p.2).max = 255 := by
  decide

/-- C3 (amended): at decoder construction the declare-device call is made
exactly once, declares each axis of the channel mapping (in order
`ABS_X, ABS_Y, ABS_Z, ABS_THROTTLE`) with abs-info value `0`, minimum `5`,
maximum `255`, fuzz `0` — i.e. value-range `[5, 255]` — plus the single
digital button `288` (`BTN_JOYSTICK`). -/
theorem C3_theorem (rate : ℕ) :
    (initDecoder rate).2.length = 1 ∧
      (initDecoder rate).2.map (fun d => d.absAxes.map fun p => (p.1, absInfoOfTuple p.2)) =
        [[(ABS_X, ⟨0, 5, 255, 0, 0, 0⟩), (ABS_Y, ⟨0, 5, 255, 0, 0, 0⟩),
          (ABS_Z, ⟨0, 5, 255, 0, 0, 0⟩), (ABS_THROTTLE, ⟨0, 5, 255, 0, 0, 0⟩)]] ∧
      (initDecoder rate).2.map (fun d => d.keys) = [[288]] ∧
      (initDecoder rate).2.map (fun d => d.name) = ["ppmadapter"] :=
  ⟨rfl, rfl, rfl, rfl⟩

/-- C7: a channel pulse (width strictly below `MarkerWidth`) processed
while unsynced, or while the channel index is at or past the mapping's
size (4), emits no axis write, requests no sync flush, and leaves the
channel index unchanged. -/
theorem C7_theorem (rate : ℕ) (w : ℤ) (k : ℕ) (hw : w < (marker rate : ℤ)) :
    signal rate none w = (none, none, false) ∧
      (4 ≤ k → signal rate (some k) w = (some k, none, false)) := by
  have hnot : ¬ (marker rate : ℤ) < w := by omega
  constructor
  · unfold signal
    rw [if_neg hnot]
  · intro hk
    unfold signal
    rw [if_neg hnot]
    simp [mapping_eq_none_of_ge k hk]

/-- C7 witness: concrete instance at `rate = 1000` (marker 5), `w = 2`,
out-of-range channel index `7`. -/
theorem C7_witness :
    signal 1000 none 2 = (none, none, false) ∧
      signal 1000 (some 7) 2 = (some 7, none, false) :=
  ⟨(C7_theorem 1000 2 7 (by decide)).1, (C7_theorem 1000 2 7 (by decide)).2 (by decide)⟩

theorem feedLoop_lf_cases (rate : ℕ) (data : List ℤ) :
    ∀ (i : ℤ) (st : DecState),
      (feedLoop rate i st data).st.lf = st.lf ∨
        ∃ j, (feedLoop rate i st data).st.lf = some j ∧ i ≤ j ∧ j < i + data.length := by
  induction data with
  | nil => exact fun i st => Or.inl rfl
  | cons d rest ih =>
    intro i st
    obtain ⟨le, lf, ch⟩ := st
    have hlen : ((d :: rest).length : ℤ) = (rest.length : ℤ) + 1 := by simp
    cases le with
    | none =>
      rcases ih (i + 1) ⟨some (edge d), lf, ch⟩ with h | ⟨j, hj, h1, h2⟩
      · exact Or.inl (by simpa [feedLoop_cons_first] using h)
      · exact Or.inr ⟨j, by simpa [feedLoop_cons_first] using hj, by omega, by rw [hlen]; omega⟩
    | some last =>
      by_cases h1 : (edge d && !last) = true
      · cases lf with
        | some f =>
          rcases ih (i + 1) ⟨some (edge d), some f, (signal rate ch (i - f)).1⟩ with h | ⟨j, hj, hj1, hj2⟩
          · exact Or.inl (by simpa [feedLoop_cons_rising rate i ⟨some last, some f, ch⟩ d rest last f rfl rfl h1] using h)
          · exact Or.inr ⟨j, by simpa [feedLoop_cons_rising rate i ⟨some last, some f, ch⟩ d rest last f rfl rfl h1] using hj,
              by omega, by rw [hlen]; omega⟩
        | none =>
          rcases ih (i + 1) ⟨some (edge d), none, ch⟩ with h | ⟨j, hj, hj1, hj2⟩
          · exact Or.inl (by simpa [feedLoop_cons_rising_nolf rate i ⟨some last, none, ch⟩ d rest last rfl rfl h1] using h)
          · exact Or.inr ⟨j, by simpa [feedLoop_cons_rising_nolf rate i ⟨some last, none, ch⟩ d rest last rfl rfl h1] using hj,
              by omega, by rw [hlen]; omega⟩
      · by_cases h2 : (!(edge d) && last) = true
        · rcases ih (i + 1) ⟨some (edge d), some i, ch⟩ with h | ⟨j, hj, hj1, hj2⟩
          · refine Or.inr ⟨i, ?_, le_refl i, by rw [hlen]; omega⟩
            rw [feedLoop_cons_falling rate i ⟨some last, lf, ch⟩ d rest last rfl (by simpa using h1) h2, h]
          · exact Or.inr ⟨j, by simpa [feedLoop_cons_falling rate i ⟨some last, lf, ch⟩ d rest last rfl (by simpa using h1) h2] using hj,
              by omega, by rw [hlen]; omega⟩
        · rcases ih (i + 1) ⟨some (edge d), lf, ch⟩ with h | ⟨j, hj, hj1, hj2⟩
          · exact Or.inl (by simpa [feedLoop_cons_flat rate i ⟨some last, lf, ch⟩ d rest last rfl (by simpa using h1) (by simpa using h2)] using h)
          · exact Or.inr ⟨j, by simpa [feedLoop_cons_flat rate i ⟨some last, lf, ch⟩ d rest last rfl (by simpa using h1) (by simpa using h2)] using hj,
              by omega, by rw [hlen]; omega⟩

theorem feedLoop_sync_iff (rate : ℕ) (data : List ℤ) :
    ∀ (i : ℤ) (st : DecState),
      ((feedLoop rate i st data).syncReq = true ↔ (feedLoop rate i st data).writes ≠ []) := by
  induction data with
  | nil => intro i st; simp [feedLoop_nil]
  | cons d rest ih =>
    intro i st
    obtain ⟨le, lf, ch⟩ := st
    cases le with
    | none => simpa [feedLoop_cons_first] using ih (i + 1) _
    | some last =>
      by_cases h1 : (edge d && !last) = true
      · cases lf with
        | some f =>
          rw [feedLoop_cons_rising rate i _ d rest last f rfl rfl h1]
          have hs := signal_sync_iff_write rate ch (i - f)
          have hi := ih (i + 1) ⟨some (edge d), some f, (signal rate ch (i - f)).1⟩
          cases hr : (signal rate ch (i - f)).2.1 with
          | none =>
            simp only [hr, Option.toList_none, List.nil_append, Bool.or_eq_true]
            rw [hr] at hs
            simp only [ne_eq, not_true_eq_false, iff_false] at hs
            constructor
            · rintro (ha | hb)
              · exact absurd ha hs
              · exact hi.mp hb
            · intro hw
              exact Or.inr (hi.mpr hw)
          | some p =>
            simp only [hr, Option.toList_some, Bool.or_eq_true]
            constructor
            · intro _
              simp
            · intro _
              left
              rw [hs, hr]
              simp
        | none =>
          rw [feedLoop_cons_rising_nolf rate i _ d rest last rfl rfl h1]
          exact ih (i + 1) _
      · by_cases h2 : (!(edge d) && last) = true
        · rw [feedLoop_cons_falling rate i _ d rest last rfl (by simpa using h1) h2]
          exact ih (i + 1) _
        · rw [feedLoop_cons_flat rate i _ d rest last rfl (by simpa using h1) (by simpa using h2)]
          exact ih (i + 1) _

/-- C4: after the end-of-block normalization (`self._lf - len(data)`): if the
offset is defined and the normalized value is strictly below `-rate`, `feed`
returns with channel index unset and falling-edge offset unset; otherwise the
guard resets nothing — a defined offset is merely replaced by its normalized
value with the channel index untouched, and an unset offset leaves the loop
state as is. -/
theorem C4_theorem (rate : ℕ) (st : DecState) (data : List ℤ) :
    (∀ f, (feedLoop rate 0 st data).st.lf = some f →
        f - (data.length : ℤ) < -(rate : ℤ) →
      (feed rate st data).st = { (feedLoop rate 0 st data).st with ch := none, lf := none }) ∧
    (∀ f, (feedLoop rate 0 st data).st.lf = some f →
        -(rate : ℤ) ≤ f - (data.length : ℤ) →
      (feed rate st data).st =
        { (feedLoop rate 0 st data).st with lf := some (f - (data.length : ℤ)) }) ∧
    ((feedLoop rate 0 st data).st.lf = none → (feed rate st data).st = (feedLoop rate 0 st data).st) := by
  refine ⟨fun f hf hg => ?_, fun f hf hg => ?_, fun hf => ?_⟩
  · simp only [feed, endOfBlock, hf]
    rw [if_pos hg]
  · simp only [feed, endOfBlock, hf]
    rw [if_neg (by omega)]
  · simp only [feed, endOfBlock, hf]

/-- C4 witness: a state carrying falling-edge offset `-10` fed an empty block
at `rate = 5` (so the normalized offset `-10` is below `-rate = -5`) comes
back fully unsynced. -/
theorem C4_witness :
    (feed 5 ⟨none, some (-10), some 2⟩ []).st = ⟨none, none, none⟩ :=
  (C4_theorem 5 ⟨none, some (-10), some 2⟩ []).1 (-10) rfl (by norm_num)

/-- C5: per fed block, the sink's `syn()` is called at most once, and it is
called exactly once if and only if at least one axis write occurred while
processing the block. -/
theorem C5_theorem (rate : ℕ) (st : DecState) (data : List ℤ) :
    (feed rate st data).syncs ≤ 1 ∧
      ((feed rate st data).syncs = 1 ↔ (feed rate st data).writes ≠ []) := by
  have h := feedLoop_sync_iff rate data 0 st
  simp only [feed]
  by_cases hs : (feedLoop rate 0 st data).syncReq = true
  · rw [if_pos hs]
    exact ⟨le_refl 1, by simpa [hs] using h⟩
  · rw [if_neg hs]
    refine ⟨by omega, ?_, ?_⟩
    · omega
    · intro hw
      exact absurd (h.mpr hw) hs

/-- C5 witness: a block producing one axis write at `rate = 10000` from a
synced state with a pending falling edge. -/
theorem C5_witness :
    (feed 10000 ⟨some false, some (-1), some 0⟩ [20000, 0]).syncs ≤ 1 ∧
      ((feed 10000 ⟨some false, some (-1), some 0⟩ [20000, 0]).syncs = 1 ↔
        (feed 10000 ⟨some false, some (-1), some 0⟩ [20000, 0]).writes ≠ []) :=
  C5_theorem 10000 ⟨some false, some (-1), some 0⟩ [20000, 0]

/-- C8: feeding an empty sample block is a no-op for every state whose
falling-edge offset is at least `-rate` (true of every state the decoder can
be in between feeds): no writes, no measured widths, no `syn()`, and the
state — trailing edge level, falling-edge offset, channel index — unchanged. -/
theorem C8_theorem (rate : ℕ) (st : DecState)
    (h : ∀ f, st.lf = some f → -(rate : ℤ) ≤ f) :
    feed rate st [] = ⟨st, [], [], 0⟩ := by
  obtain ⟨le, lf, ch⟩ := st
  cases lf with
  | none => rfl
  | some f =>
    have hf := h f rfl
    simp only [feed, feedLoop, endOfBlock, List.length_nil]
    rw [if_neg (by push_cast; omega)]
    simp

/-- C8 witness: empty feed at `rate = 100` from a mid-stream state. -/
theorem C8_witness :
    feed 100 ⟨some true, some (-3), some 1⟩ [] = ⟨⟨some true, some (-3), some 1⟩, [], [], 0⟩ :=
  C8_theorem 100 ⟨some true, some (-3), some 1⟩
    (fun f hf => by simp only [Option.some.injEq] at hf; omega)

/-- C9: if the falling-edge offset is unset or in `[-rate, -1]` on entry to
`feed`, the same holds when `feed` returns; every block (empty or not)
preserves the invariant, the sync-loss guard clearing the offset when it
would leave the range. -/
theorem C9_theorem (rate : ℕ) (st : DecState) (data : List ℤ) (h : lfInv rate st) :
    lfInv rate (feed rate st data).st := by
  intro f hf
  simp only [feed, endOfBlock] at hf
  split at hf
  case h_1 heq =>
    rw [heq] at hf
    exact absurd hf (by simp)
  case h_2 g heq =>
    split at hf
    · exact absurd hf (by simp)
    case isFalse hguard =>
      simp only [Option.some.injEq] at hf
      rcases feedLoop_lf_cases rate data 0 st with hc | ⟨j, hj, hj1, hj2⟩
      · rw [hc] at heq
        have := h g heq
        constructor <;> omega
      · rw [heq] at hj
        have hgj : g = j := by cases hj; rfl
        constructor <;> omega

/-- C9 witness: a block whose last falling edge is one sample before its end
yields offset `-1`, inside `[-rate, -1]`. -/
theorem C9_witness :
    lfInv 100 (feed 100 ⟨some true, some (-3), some 1⟩ [0, 20000, 0]).st :=
  C9_theorem 100 ⟨some true, some (-3), some 1⟩ [0, 20000, 0]
    (fun f hf => by simp only [Option.some.injEq] at hf; omega)

/-- C10: on the first feed after construction the first sample only
initializes the persisted trailing edge level — whatever its value (above
the threshold or not), processing `x :: rest` from the initial state is
processing `rest` from index 1 with the level set to `edge x`; in
particular a one-sample first block measures no width, writes nothing,
requests no sync, and only records the level. -/
theorem C10_theorem (rate : ℕ) (x : ℤ) (rest : List ℤ) :
    feedLoop rate 0 initState (x :: rest) =
        feedLoop rate 1 ⟨some (edge x), none, none⟩ rest ∧
      feed rate initState [x] = ⟨⟨some (edge x), none, none⟩, [], [], 0⟩ := by
  constructor <;> rfl

theorem feedLoop_append (rate : ℕ) (d1 : List ℤ) :
    ∀ (d2 : List ℤ) (i : ℤ) (st : DecState),
      feedLoop rate i st (d1 ++ d2) =
        seqOut (feedLoop rate i st d1)
          (feedLoop rate (i + d1.length) (feedLoop rate i st d1).st d2) := by
  induction d1 with
  | nil =>
    intro d2 i st
    simp [feedLoop_nil, seqOut]
  | cons d rest ih =>
    intro d2 i st
    obtain ⟨le, lf, ch⟩ := st
    have hidx : i + 1 + (rest.length : ℤ) = i + ((d :: rest).length : ℤ) := by
      simp; omega
    cases le with
    | none =>
      rw [List.cons_append, feedLoop_cons_first rate i _ d (rest ++ d2) rfl,
        feedLoop_cons_first rate i _ d rest rfl, ih d2 (i + 1) _, hidx]
    | some last =>
      by_cases h1 : (edge d && !last) = true
      · cases lf with
        | some f =>
          rw [List.cons_append,
            feedLoop_cons_rising rate i ⟨some last, some f, ch⟩ d (rest ++ d2) last f rfl rfl h1,
            feedLoop_cons_rising rate i ⟨some last, some f, ch⟩ d rest last f rfl rfl h1,
            ih d2 (i + 1) _, hidx]
          simp [seqOut, List.append_assoc, Bool.or_assoc]
        | none =>
          rw [List.cons_append,
            feedLoop_cons_rising_nolf rate i ⟨some last, none, ch⟩ d (rest ++ d2) last rfl rfl h1,
            feedLoop_cons_rising_nolf rate i ⟨some last, none, ch⟩ d rest last rfl rfl h1,
            ih d2 (i + 1) _, hidx]
      · by_cases h2 : (!(edge d) && last) = true
        · rw [List.cons_append,
            feedLoop_cons_falling rate i ⟨some last, lf, ch⟩ d (rest ++ d2) last rfl (by simpa using h1) h2,
            feedLoop_cons_falling rate i ⟨some last, lf, ch⟩ d rest last rfl (by simpa using h1) h2,
            ih d2 (i + 1) _, hidx]
        · rw [List.cons_append,
            feedLoop_cons_flat rate i ⟨some last, lf, ch⟩ d (rest ++ d2) last rfl (by simpa using h1) (by simpa using h2),
            feedLoop_cons_flat rate i ⟨some last, lf, ch⟩ d rest last rfl (by simpa using h1) (by simpa using h2),
            ih d2 (i + 1) _, hidx]

theorem feedLoop_shift (rate : ℕ) (data : List ℤ) :
    ∀ (i c : ℤ) (st : DecState),
      feedLoop rate (i + c) (shiftSt c st) data = shiftOut c (feedLoop rate i st data) := by
  induction data with
  | nil => intro i c st; simp [feedLoop_nil, shiftOut]
  | cons d rest ih =>
    intro i c st
    obtain ⟨le, lf, ch⟩ := st
    have hidx : i + c + 1 = i + 1 + c := by ring
    simp only [shiftSt]
    cases le with
    | none =>
      rw [feedLoop_cons_first rate (i + c) ⟨none, Option.map (· + c) lf, ch⟩ d rest rfl,
        feedLoop_cons_first rate i ⟨none, lf, ch⟩ d rest rfl, hidx]
      have := ih (i + 1) c ⟨some (edge d), lf, ch⟩
      simpa only [shiftSt] using this
    | some last =>
      by_cases h1 : (edge d && !last) = true
      · cases lf with
        | some f =>
          have hw : i + c - (f + c) = i - f := by ring
          simp only [Option.map_some']
          rw [feedLoop_cons_rising rate (i + c) ⟨some last, some (f + c), ch⟩ d rest last (f + c) rfl rfl h1,
            feedLoop_cons_rising rate i ⟨some last, some f, ch⟩ d rest last f rfl rfl h1,
            hw, hidx]
          have := ih (i + 1) c ⟨some (edge d), some f, (signal rate ch (i - f)).1⟩
          simp only [shiftSt, Option.map_some'] at this
          rw [this]
          simp [shiftOut, shiftSt]
        | none =>
          simp only [Option.map_none']
          rw [feedLoop_cons_rising_nolf rate (i + c) ⟨some last, none, ch⟩ d rest last rfl rfl h1,
            feedLoop_cons_rising_nolf rate i ⟨some last, none, ch⟩ d rest last rfl rfl h1, hidx]
          have := ih (i + 1) c ⟨some (edge d), none, ch⟩
          simpa only [shiftSt, Option.map_none'] using this
      · by_cases h2 : (!(edge d) && last) = true
        · rw [feedLoop_cons_falling rate (i + c) ⟨some last, Option.map (· + c) lf, ch⟩ d rest last rfl (by simpa using h1) h2,
            feedLoop_cons_falling rate i ⟨some last, lf, ch⟩ d rest last rfl (by simpa using h1) h2, hidx]
          have := ih (i + 1) c ⟨some (edge d), some i, ch⟩
          simpa only [shiftSt, Option.map_some'] using this
        · rw [feedLoop_cons_flat rate (i + c) ⟨some last, Option.map (· + c) lf, ch⟩ d rest last rfl (by simpa using h1) (by simpa using h2),
            feedLoop_cons_flat rate i ⟨some last, lf, ch⟩ d rest last rfl (by simpa using h1) (by simpa using h2), hidx]
          have := ih (i + 1) c ⟨some (edge d), lf, ch⟩
          simpa only [shiftSt] using this

theorem endOfBlock_eq_shift (rate : ℕ) (st : DecState) (len : ℕ)
    (h : ∀ f, st.lf = some f → -(rate : ℤ) ≤ f - (len : ℤ)) :
    endOfBlock rate st len = shiftSt (-(len : ℤ)) st := by
  obtain ⟨le, lf, ch⟩ := st
  cases lf with
  | none => rfl
  | some f =>
    have hf := h f rfl
    simp only [endOfBlock, shiftSt, Option.map_some']
    rw [if_neg (by omega)]
    have : f - (len : ℤ) = f + -(len : ℤ) := by ring
    rw [this]

theorem endOfBlock_shift (rate : ℕ) (s : DecState) (len1 len2 : ℕ) :
    endOfBlock rate (shiftSt (-(len1 : ℤ)) s) len2 = endOfBlock rate s (len1 + len2) := by
  obtain ⟨le, lf, ch⟩ := s
  cases lf with
  | none => rfl
  | some g =>
    simp only [shiftSt, Option.map_some', endOfBlock]
    have h1 : g + -(len1 : ℤ) - (len2 : ℤ) = g - ((len1 + len2 : ℕ) : ℤ) := by push_cast; ring
    rw [h1]

/-- C6: a pulse split across a `feed` boundary decodes identically to the
unsplit pulse: provided the first block's carried-over falling-edge offset
does not trip the sync-loss guard (which always holds when the split pulse
is a channel pulse), feeding `d1` then `d2` yields the same final state and
the same concatenated sequences of measured widths and axis writes as
feeding `d1 ++ d2` at once — the offset stays correct across the boundary
because it is renormalized by the block length at each block's end. -/
theorem C6_theorem (rate : ℕ) (st : DecState) (d1 d2 : List ℤ)
    (h : ∀ f, (feedLoop rate 0 st d1).st.lf = some f → -(rate : ℤ) ≤ f - (d1.length : ℤ)) :
    (feed rate st (d1 ++ d2)).st = (feed rate (feed rate st d1).st d2).st ∧
      (feed rate st (d1 ++ d2)).widths =
        (feed rate st d1).widths ++ (feed rate (feed rate st d1).st d2).widths ∧
      (feed rate st (d1 ++ d2)).writes =
        (feed rate st d1).writes ++ (feed rate (feed rate st d1).st d2).writes := by
  have hA : (feed rate st d1).st = shiftSt (-(d1.length : ℤ)) (feedLoop rate 0 st d1).st := by
    simp only [feed]
    exact endOfBlock_eq_shift rate (feedLoop rate 0 st d1).st d1.length h
  have hB : feedLoop rate 0 (shiftSt (-(d1.length : ℤ)) (feedLoop rate 0 st d1).st) d2
      = shiftOut (-(d1.length : ℤ)) (feedLoop rate (d1.length : ℤ) (feedLoop rate 0 st d1).st d2) := by
    have hs := feedLoop_shift rate d2 (d1.length : ℤ) (-(d1.length : ℤ)) (feedLoop rate 0 st d1).st
    have h0 : (d1.length : ℤ) + -(d1.length : ℤ) = 0 := by ring
    rw [h0] at hs
    exact hs
  have hC : feedLoop rate 0 st (d1 ++ d2) =
      seqOut (feedLoop rate 0 st d1)
        (feedLoop rate (d1.length : ℤ) (feedLoop rate 0 st d1).st d2) := by
    have ha := feedLoop_append rate d1 d2 0 st
    rw [zero_add] at ha
    exact ha
  refine ⟨?_, ?_, ?_⟩
  · show endOfBlock rate (feedLoop rate 0 st (d1 ++ d2)).st (d1 ++ d2).length =
      endOfBlock rate (feedLoop rate 0 (feed rate st d1).st d2).st d2.length
    rw [hA, hB, hC]
    simp only [seqOut, shiftOut, List.length_append]
    exact (endOfBlock_shift rate (feedLoop rate (d1.length : ℤ) (feedLoop rate 0 st d1).st d2).st d1.length d2.length).symm
  · show (feedLoop rate 0 st (d1 ++ d2)).widths =
      (feedLoop rate 0 st d1).widths ++ (feedLoop rate 0 (feed rate st d1).st d2).widths
    rw [hA, hB, hC]
    rfl
  · show (feedLoop rate 0 st (d1 ++ d2)).writes =
      (feedLoop rate 0 st d1).writes ++ (feedLoop rate 0 (feed rate st d1).st d2).writes
    rw [hA, hB, hC]
    rfl

/-- C6 witness: a pulse whose falling edge is the last sample of the first
block and whose rising edge is in the second block decodes the same split
or unsplit (`rate = 10000`). -/
theorem C6_witness :
    (feed 10000 initState ([0, 20000, 0] ++ [0, 20000])).st =
        (feed 10000 (feed 10000 initState [0, 20000, 0]).st [0, 20000]).st ∧
      (feed 10000 initState ([0, 20000, 0] ++ [0, 20000])).widths =
        (feed 10000 initState [0, 20000, 0]).widths ++
          (feed 10000 (feed 10000 initState [0, 20000, 0]).st [0, 20000]).widths ∧
      (feed 10000 initState ([0, 20000, 0] ++ [0, 20000])).writes =
        (feed 10000 initState [0, 20000, 0]).writes ++
          (feed 10000 (feed 10000 initState [0, 20000, 0]).st [0, 20000]).writes :=
  C6_theorem 10000 initState [0, 20000, 0] [0, 20000]
    (fun f hf => by
      have h2 : (feedLoop 10000 0 initState [0, 20000, 0]).st.lf = some 2 := by decide
      rw [h2] at hf
      simp only [Option.some.injEq] at hf
      simp only [List.length_cons, List.length_nil]
      omega)

end PPM
